import Mathlib

/-!
Shallow embedding of the AnnoyScript interpreter (annoy.py).

The embedding follows the Python source function by function:
strip_comments, parse_program / parse_block, and the AnnoyInterpreter
methods execute_block, execute_literal, apply_pointer_movement and run.
Source text is modelled as a list of characters, machine integers as
Nat with explicit wrapping, Python integer arithmetic (which may go
negative before the modulo) as Int with Python's nonnegative-result
modulo written as Int.emod, and fallible code as Except.
-/

/-- Models Python str.isspace for a single character (the whitespace
code points of the Basic Multilingual Plane that CPython accepts). -/
def pyIsSpace (c : Char) : Bool :=
  decide ((9 ≤ c.toNat ∧ c.toNat ≤ 13) ∨ (28 ≤ c.toNat ∧ c.toNat ≤ 32) ∨
    c.toNat = 133 ∨ c.toNat = 160 ∨ c.toNat = 5760 ∨
    (8192 ≤ c.toNat ∧ c.toNat ≤ 8202) ∨ c.toNat = 8232 ∨ c.toNat = 8233 ∨
    c.toNat = 8239 ∨ c.toNat = 8287 ∨ c.toNat = 12288)

/-- Models the line boundaries of Python str.splitlines (other than the
two-character boundary CR LF, which pySplitlines handles separately). -/
def isPyLineBreak (c : Char) : Bool :=
  decide (c.toNat = 10 ∨ c.toNat = 11 ∨ c.toNat = 12 ∨ c.toNat = 13 ∨
    c.toNat = 28 ∨ c.toNat = 29 ∨ c.toNat = 30 ∨ c.toNat = 133 ∨
    c.toNat = 8232 ∨ c.toNat = 8233)

/-- Models Python str.splitlines: every line boundary ends a line (CR LF
counting as a single boundary), a trailing segment forms a final line
only when it is nonempty, so the empty string yields no lines. -/
def pySplitlines : List Char → List (List Char)
  | [] => []
  | '\r' :: '\n' :: rest => [] :: pySplitlines rest
  | c :: rest =>
    if isPyLineBreak c then [] :: pySplitlines rest
    else
      match pySplitlines rest with
      | [] => [[c]]
      | line :: lines => (c :: line) :: lines

/-- Models Python str.find for the semicolon character: index of the
first occurrence, none when absent (Python returns -1). -/
def findSemicolon : List Char → Option Nat
  | [] => none
  | c :: rest => if c = ';' then some 0 else (findSemicolon rest).map (· + 1)

/-- One line of strip_comments: cut the line at the first semicolon
when there is one, keep it unchanged otherwise. -/
def cutLine (line : List Char) : List Char :=
  match findSemicolon line with
  | some i => line.take i
  | none => line

/-- strip_comments from annoy.py: split into lines, cut each line at
its first semicolon, join the lines back with a newline. -/
def strip_comments (source : List Char) : List Char :=
  List.intercalate ['\n'] ((pySplitlines source).map cutLine)

/-- The two block kinds of annoy.py: "normal" and "conditional". -/
inductive BlockType where
  | normal
  | conditional
deriving DecidableEq

mutual
/-- A parsed token pair: Block(block_type, items) from annoy.py. -/
inductive Block where
  | mk (block_type : BlockType) (items : List Item)

/-- One entry of a Block's item list: a literal string of operator
characters, or a nested Block. -/
inductive Item where
  | lit (text : List Char)
  | blk (b : Block)
end

/-- The block_type field of a Block. -/
def Block.block_type : Block → BlockType
  | .mk t _ => t

/-- The items field of a Block. -/
def Block.items : Block → List Item
  | .mk _ its => its

/-- The parse errors raised by annoy.py, with the data that the raised
message interpolates (characters and source indices). -/
inductive ParseError where
  | unexpectedTop (c : Char) (idx : Nat)
  | expectedOpen (idx : Nat)
  | endAfterOpen (idx : Nat)
  | invalidKind (idx : Nat) (c : Char)
  | missingClosing (c1 c2 : Char) (idx : Nat)
  | outOfFuel
deriving DecidableEq

/-- Flushing the pending literal buffer of parse_block: a nonempty
buffer is appended to the item list as a Literal item. -/
def flushBuffer (buffer : List Char) (items : List Item) : List Item :=
  if buffer = [] then items else items ++ [Item.lit buffer]

mutual
/-- parse_block from annoy.py. The remaining source is a suffix list
and pos is the absolute index of its first character; the result
carries the suffix and index just past the closing token. The fuel
argument only bounds the recursion depth of the embedding: every
recursive call decrements it, and a run that exhausts it answers
ParseError.outOfFuel (the Python loop needs no such bound because its
index strictly increases). -/
def parse_block : Nat → List Char → Nat → Except ParseError (Block × List Char × Nat)
  | 0, _, _ => .error .outOfFuel
  | fuel + 1, l, pos =>
    match l with
    | '(' :: rest =>
      match rest with
      | [] => .error (.endAfterOpen (pos + 1))
      | k :: body =>
        if k = '<' then parse_block_body fuel BlockType.normal '>' ')' body (pos + 2) [] []
        else if k = '?' then parse_block_body fuel BlockType.conditional '?' ')' body (pos + 2) [] []
        else .error (.invalidKind (pos + 1) k)
    | _ => .error (.expectedOpen pos)

/-- The scanning loop of parse_block: c1 c2 is the two-character
closing token, buffer the pending literal characters, items the items
collected so far. Mirrors the loop body order: closing-token lookahead,
nested-block lookahead, then literal accumulation; falling off the end
of the source raises the missing-closing-token error at the current
index (which at that point is the end of the source). -/
def parse_block_body : Nat → BlockType → Char → Char → List Char → Nat → List Char →
    List Item → Except ParseError (Block × List Char × Nat)
  | 0, _, _, _, _, _, _, _ => .error .outOfFuel
  | fuel + 1, bt, c1, c2, l, pos, buffer, items =>
    match l with
    | [] => .error (.missingClosing c1 c2 pos)
    | a :: rest =>
      if a = c1 ∧ rest.head? = some c2 then
        .ok (Block.mk bt (flushBuffer buffer items), rest.tail, pos + 2)
      else if a = '(' ∧ (rest.head? = some '<' ∨ rest.head? = some '?') then
        match parse_block fuel (a :: rest) pos with
        | .error e => .error e
        | .ok (b, l', pos') =>
          parse_block_body fuel bt c1 c2 l' pos' [] (flushBuffer buffer items ++ [Item.blk b])
      else
        parse_block_body fuel bt c1 c2 rest (pos + 1) (buffer ++ [a]) items
end

/-- The scanning loop of parse_program: skip whitespace, parse a block
at an opening parenthesis, fail on any other character. -/
def parse_program_aux : Nat → List Char → Nat → Except ParseError (List Block)
  | 0, _, _ => .error .outOfFuel
  | fuel + 1, l, pos =>
    match l with
    | [] => .ok []
    | c :: rest =>
      if pyIsSpace c then parse_program_aux fuel rest (pos + 1)
      else if c = '(' then
        match parse_block fuel (c :: rest) pos with
        | .error e => .error e
        | .ok (b, l', pos') =>
          match parse_program_aux fuel l' pos' with
          | .error e => .error e
          | .ok bs => .ok (b :: bs)
      else .error (.unexpectedTop c pos)

/-- parse_program from annoy.py, scanning the whole source from index 0. -/
def parse_program (fuel : Nat) (source : List Char) : Except ParseError (List Block) :=
  parse_program_aux fuel source 0

/-- The machine state of AnnoyInterpreter, together with the two I/O
streams: input holds the code points not yet read by the comma
operator, output the code points already written by the dot operator. -/
structure MachineState where
  tape : List Nat
  pointer : Nat
  instruction_counter : Nat
  input : List Nat
  output : List Nat
deriving DecidableEq

/-- The runtime errors raised by annoy.py, with the data their
messages interpolate. -/
inductive RuntimeError where
  | displayOfDismay (cellIndex value : Nat)
  | inputExhausted
  | unknownOp (c : Char) (depth : Nat)
deriving DecidableEq

/-- The freshly initialised interpreter state: 128 zero cells, pointer
at cell 0, instruction counter 0, no output yet. -/
def initState (input : List Nat) : MachineState :=
  { tape := List.replicate 128 0, pointer := 0, instruction_counter := 0,
    input := input, output := [] }

/-- tape[pointer] of annoy.py (the pointer is always in range on
reachable states, so the default value 0 is never consulted there). -/
def getCell (s : MachineState) : Nat :=
  s.tape.getD s.pointer 0

/-- tape[pointer] = v of annoy.py. -/
def setCell (s : MachineState) (v : Nat) : MachineState :=
  { s with tape := s.tape.set s.pointer v }

/-- Length of the run of consecutive characters equal to c at the head
of the list: the count loop of the plus and minus branch of
execute_literal, counting from the character after the first. -/
def runLength (c : Char) : List Char → Nat
  | [] => 0
  | x :: xs => if x = c then runLength c xs + 1 else 0

/-- The effect loop of the plus and minus branch of execute_literal:
for k from 1 to count, a plus adds k at even depth and subtracts k at
odd depth, a minus does the opposite (the recursion adds the terms in
the opposite order, which does not change the sum). -/
def effectLoop (ch : Char) (depth : Nat) : Nat → Int
  | 0 => 0
  | k + 1 =>
    effectLoop ch depth k +
      (if ch = '+' then (if depth % 2 = 0 then ((k : Int) + 1) else -((k : Int) + 1))
       else -(if depth % 2 = 0 then ((k : Int) + 1) else -((k : Int) + 1)))

/-- execute_literal from annoy.py. The Int argument is the running
pointer_override accumulator of its while loop (0 at every call site),
and the result pairs the final accumulator with the updated state.
Cell arithmetic follows the source: Python's modulo on a possibly
negative value is Int.emod, always nonnegative. -/
def execute_literal : List Char → Nat → Int → MachineState →
    Except RuntimeError (Int × MachineState)
  | [], _, ov, s => .ok (ov, s)
  | ch :: tail, depth, ov, s =>
    if ch = '+' ∨ ch = '-' then
      let n := runLength ch tail
      let effect := effectLoop ch depth (n + 1)
      execute_literal (tail.drop n) depth ov
        (setCell s ((((getCell s : Int) + effect) % 256).toNat))
    else if ch = '^' then
      execute_literal tail depth (ov + (if depth % 2 = 0 then 1 else -1)) s
    else if ch = 'v' then
      execute_literal tail depth (ov + (if depth % 2 = 0 then -1 else 1)) s
    else if ch = '.' then
      if getCell s < 32 ∨ getCell s > 126 then
        .error (.displayOfDismay s.pointer (getCell s))
      else
        execute_literal tail depth ov { s with output := s.output ++ [getCell s] }
    else if ch = ',' then
      match s.input with
      | [] => .error .inputExhausted
      | a :: restInput =>
        execute_literal tail depth ov
          { s with tape := s.tape.set s.pointer (a % 256), input := restInput }
    else if ch = '#' then
      execute_literal tail depth ov (setCell s 0)
    else if pyIsSpace ch then
      execute_literal tail depth ov s
    else
      .error (.unknownOp ch depth)
termination_by l => l.length
decreasing_by
  all_goals simp [List.length_drop]
  omega

/-- The pointer override a literal contributes, read off the text and
depth alone: the caret and vee branches of execute_literal are the
only ones that touch the accumulator, and they do not read the state. -/
def literalOverride : List Char → Nat → Int
  | [], _ => 0
  | ch :: tail, depth =>
    if ch = '+' ∨ ch = '-' then
      literalOverride (tail.drop (runLength ch tail)) depth
    else if ch = '^' then
      (if depth % 2 = 0 then 1 else -1) + literalOverride tail depth
    else if ch = 'v' then
      (if depth % 2 = 0 then -1 else 1) + literalOverride tail depth
    else
      literalOverride tail depth
termination_by l => l.length
decreasing_by
  all_goals simp [List.length_drop]
  omega

/-- apply_pointer_movement from annoy.py: a nonzero override is added
to the pointer modulo 128; otherwise the default rule moves left when
the (already incremented) instruction counter is odd and right when it
is even, both modulo 128. -/
def apply_pointer_movement (override : Int) (s : MachineState) : MachineState :=
  if override ≠ 0 then
    { s with pointer := (((s.pointer : Int) + override) % 128).toNat }
  else if s.instruction_counter % 2 = 1 then
    { s with pointer := (((s.pointer : Int) - 1) % 128).toNat }
  else
    { s with pointer := (((s.pointer : Int) + 1) % 128).toNat }

mutual
/-- execute_block from annoy.py: a conditional block whose current
cell is zero only counts as an instruction and moves the pointer by
the default rule; otherwise the items run in order, the instruction
counter is incremented, and the pointer moves using the override total
accumulated from this block's own literal items. -/
def execute_block (block : Block) (depth : Nat) (s : MachineState) :
    Except RuntimeError MachineState :=
  match block with
  | .mk bt items =>
    if bt = BlockType.conditional ∧ getCell s = 0 then
      .ok (apply_pointer_movement 0
        { s with instruction_counter := s.instruction_counter + 1 })
    else
      match execute_items items depth 0 s with
      | .error e => .error e
      | .ok (ov, s') =>
        .ok (apply_pointer_movement ov
          { s' with instruction_counter := s'.instruction_counter + 1 })

/-- The item loop of execute_block: ov is the running
block_pointer_override accumulator (0 at the call site); a literal
item adds its returned override to it, a nested block runs at depth + 1
and leaves it untouched. -/
def execute_items (items : List Item) (depth : Nat) (ov : Int) (s : MachineState) :
    Except RuntimeError (Int × MachineState)  :=
  match items with
  | [] => .ok (ov, s)
  | .lit text :: rest =>
    match execute_literal text depth 0 s with
    | .error e => .error e
    | .ok (o, s') => execute_items rest depth (ov + o) s'
  | .blk b :: rest =>
    match execute_block b (depth + 1) s with
    | .error e => .error e
    | .ok s' => execute_items rest depth ov s'
end

/-- The loop of AnnoyInterpreter.run: execute every top-level block in
order, each at depth 0. -/
def runBlocks : List Block → MachineState → Except RuntimeError MachineState
  | [], s => .ok s
  | b :: rest, s =>
    match execute_block b 0 s with
    | .error e => .error e
    | .ok s' => runBlocks rest s'

/-- AnnoyInterpreter.run on a fresh interpreter built from the parsed
blocks, with a given input stream. -/
def AnnoyInterpreter.run (blocks : List Block) (input : List Nat) :
    Except RuntimeError MachineState :=
  runBlocks blocks (initState input)

mutual
/-- execute_block instrumented with the number of Block nodes actually
visited: identical to execute_block except that the result also
carries one count for this block plus the counts of the nested blocks
it ran (literal items contribute nothing). -/
def execute_block_counted (block : Block) (depth : Nat) (s : MachineState) :
    Except RuntimeError (MachineState × Nat) :=
  match block with
  | .mk bt items =>
    if bt = BlockType.conditional ∧ getCell s = 0 then
      .ok (apply_pointer_movement 0
        { s with instruction_counter := s.instruction_counter + 1 }, 1)
    else
      match execute_items_counted items depth 0 s with
      | .error e => .error e
      | .ok (ov, s', n) =>
        .ok (apply_pointer_movement ov
          { s' with instruction_counter := s'.instruction_counter + 1 }, n + 1)

/-- The item loop of execute_block_counted, accumulating the visit
counts of the nested blocks that actually ran. -/
def execute_items_counted (items : List Item) (depth : Nat) (ov : Int)
    (s : MachineState) : Except RuntimeError (Int × MachineState × Nat) :=
  match items with
  | [] => .ok (ov, s, 0)
  | .lit text :: rest =>
    match execute_literal text depth 0 s with
    | .error e => .error e
    | .ok (o, s') => execute_items_counted rest depth (ov + o) s'
  | .blk b :: rest =>
    match execute_block_counted b (depth + 1) s with
    | .error e => .error e
    | .ok (s', m) =>
      match execute_items_counted rest depth ov s' with
      | .error e => .error e
      | .ok (ov', s'', n) => .ok (ov', s'', m + n)
end

/-- The loop of AnnoyInterpreter.run instrumented with the total
number of Block nodes visited. -/
def runBlocks_counted : List Block → MachineState →
    Except RuntimeError (MachineState × Nat)
  | [], s => .ok (s, 0)
  | b :: rest, s =>
    match execute_block_counted b 0 s with
    | .error e => .error e
    | .ok (s', m) =>
      match runBlocks_counted rest s' with
      | .error e => .error e
      | .ok (s'', n) => .ok (s'', m + n)

/-- AnnoyInterpreter.run instrumented with the total number of Block
nodes visited over the whole run. -/
def run_counted (blocks : List Block) (input : List Nat) :
    Except RuntimeError (MachineState × Nat) :=
  runBlocks_counted blocks (initState input)

/-- The machine-state invariant of the specification: the tape has
exactly 128 cells, every cell value lies in [0, 255], and the pointer
lies in [0, 127]. -/
def WFState (s : MachineState) : Prop :=
  s.tape.length = 128 ∧ (∀ v ∈ s.tape, v ≤ 255) ∧ s.pointer ≤ 127

/-- The override a single direct item of a block contributes to the
block's accumulator: the literal's override for a literal item,
nothing for a nested block item. -/
def directItemOverride (it : Item) (depth : Nat) : Int :=
  match it with
  | .lit text => literalOverride text depth
  | .blk _ => 0

theorem pyIsSpace_ne_ops {c : Char} (h : pyIsSpace c = true) :
    c ≠ '+' ∧ c ≠ '-' ∧ c ≠ '^' ∧ c ≠ 'v' ∧ c ≠ '.' ∧ c ≠ ',' ∧ c ≠ '#' := by
  refine ⟨?_, ?_, ?_, ?_, ?_, ?_, ?_⟩ <;> rintro rfl <;> exact absurd h (by decide)

theorem execute_literal_nil (d : Nat) (ov : Int) (s : MachineState) :
    execute_literal [] d ov s = .ok (ov, s) := by
  simp [execute_literal]

theorem execute_literal_plusminus {ch : Char} (h : ch = '+' ∨ ch = '-')
    (tail : List Char) (d : Nat) (ov : Int) (s : MachineState) :
    execute_literal (ch :: tail) d ov s =
      execute_literal (tail.drop (runLength ch tail)) d ov
        (setCell s ((((getCell s : Int) + effectLoop ch d (runLength ch tail + 1)) % 256).toNat)) := by
  rcases h with h | h <;> subst h <;> simp [execute_literal]

theorem execute_literal_caret (tail : List Char) (d : Nat) (ov : Int) (s : MachineState) :
    execute_literal ('^' :: tail) d ov s =
      execute_literal tail d (ov + (if d % 2 = 0 then 1 else -1)) s := by
  simp [execute_literal]

theorem execute_literal_vee (tail : List Char) (d : Nat) (ov : Int) (s : MachineState) :
    execute_literal ('v' :: tail) d ov s =
      execute_literal tail d (ov + (if d % 2 = 0 then -1 else 1)) s := by
  simp [execute_literal]

theorem execute_literal_dot_ok (tail : List Char) (d : Nat) (ov : Int) (s : MachineState)
    (h : ¬(getCell s < 32 ∨ getCell s > 126)) :
    execute_literal ('.' :: tail) d ov s =
      execute_literal tail d ov { s with output := s.output ++ [getCell s] } := by
  simp [execute_literal, h]

theorem execute_literal_dot_err (tail : List Char) (d : Nat) (ov : Int) (s : MachineState)
    (h : getCell s < 32 ∨ getCell s > 126) :
    execute_literal ('.' :: tail) d ov s = .error (.displayOfDismay s.pointer (getCell s)) := by
  simp [execute_literal, h]

theorem execute_literal_comma_ok (tail : List Char) (d : Nat) (ov : Int) (s : MachineState)
    {a : Nat} {restInput : List Nat} (h : s.input = a :: restInput) :
    execute_literal (',' :: tail) d ov s =
      execute_literal tail d ov
        { s with tape := s.tape.set s.pointer (a % 256), input := restInput } := by
  simp [execute_literal, h]

theorem execute_literal_comma_err (tail : List Char) (d : Nat) (ov : Int) (s : MachineState)
    (h : s.input = []) :
    execute_literal (',' :: tail) d ov s = .error .inputExhausted := by
  simp [execute_literal, h]

theorem execute_literal_hash (tail : List Char) (d : Nat) (ov : Int) (s : MachineState) :
    execute_literal ('#' :: tail) d ov s = execute_literal tail d ov (setCell s 0) := by
  simp [execute_literal]

theorem execute_literal_space {ch : Char} (h : pyIsSpace ch = true)
    (tail : List Char) (d : Nat) (ov : Int) (s : MachineState) :
    execute_literal (ch :: tail) d ov s = execute_literal tail d ov s := by
  obtain ⟨h1, h2, h3, h4, h5, h6, h7⟩ := pyIsSpace_ne_ops h
  simp [execute_literal, h, h1, h2, h3, h4, h5, h6, h7]

theorem apply_pointer_movement_tape (ov : Int) (s : MachineState) :
    (apply_pointer_movement ov s).tape = s.tape := by
  unfold apply_pointer_movement; split_ifs <;> rfl

theorem apply_pointer_movement_counter (ov : Int) (s : MachineState) :
    (apply_pointer_movement ov s).instruction_counter = s.instruction_counter := by
  unfold apply_pointer_movement; split_ifs <;> rfl

theorem apply_pointer_movement_input (ov : Int) (s : MachineState) :
    (apply_pointer_movement ov s).input = s.input := by
  unfold apply_pointer_movement; split_ifs <;> rfl

theorem apply_pointer_movement_output (ov : Int) (s : MachineState) :
    (apply_pointer_movement ov s).output = s.output := by
  unfold apply_pointer_movement; split_ifs <;> rfl

theorem apply_pointer_movement_pointer_le (ov : Int) (s : MachineState) :
    (apply_pointer_movement ov s).pointer ≤ 127 := by
  unfold apply_pointer_movement; split_ifs <;> simp <;> omega

theorem WFState_initState (input : List Nat) : WFState (initState input) := by
  refine ⟨by simp [initState], ?_, by simp [initState]⟩
  intro v hv
  simp only [initState, List.mem_replicate] at hv
  omega

theorem WFState_setTape {s : MachineState} (h : WFState s) {v : Nat} (hv : v ≤ 255)
    (p : Nat) : WFState { s with tape := s.tape.set p v } := by
  obtain ⟨hlen, hmem, hp⟩ := h
  refine ⟨by simpa using hlen, ?_, hp⟩
  intro w hw
  rcases List.mem_or_eq_of_mem_set hw with hw' | rfl
  · exact hmem w hw'
  · exact hv

theorem WFState_apply_pointer_movement {s : MachineState} (h : WFState s) (ov : Int) :
    WFState (apply_pointer_movement ov s) := by
  obtain ⟨hlen, hmem, _⟩ := h
  refine ⟨?_, ?_, apply_pointer_movement_pointer_le ov s⟩
  · rw [apply_pointer_movement_tape]; exact hlen
  · rw [apply_pointer_movement_tape]; exact hmem

theorem setCell_pointer (s : MachineState) (v : Nat) : (setCell s v).pointer = s.pointer := rfl

theorem setCell_counter (s : MachineState) (v : Nat) :
    (setCell s v).instruction_counter = s.instruction_counter := rfl

theorem WFState_setCell {s : MachineState} (h : WFState s) {v : Nat} (hv : v ≤ 255) :
    WFState (setCell s v) :=
  WFState_setTape h hv s.pointer

theorem WFState_setCounter (s : MachineState) (n : Nat) :
    WFState { s with instruction_counter := n } ↔ WFState s := Iff.rfl

theorem literalOverride_nil (d : Nat) : literalOverride [] d = 0 := by
  simp [literalOverride]

theorem literalOverride_plusminus {ch : Char} (h : ch = '+' ∨ ch = '-')
    (tail : List Char) (d : Nat) :
    literalOverride (ch :: tail) d = literalOverride (tail.drop (runLength ch tail)) d := by
  rcases h with h | h <;> subst h <;> simp [literalOverride]

theorem literalOverride_caret (tail : List Char) (d : Nat) :
    literalOverride ('^' :: tail) d =
      (if d % 2 = 0 then 1 else -1) + literalOverride tail d := by
  simp [literalOverride]

theorem literalOverride_vee (tail : List Char) (d : Nat) :
    literalOverride ('v' :: tail) d =
      (if d % 2 = 0 then -1 else 1) + literalOverride tail d := by
  simp [literalOverride]

theorem literalOverride_other {ch : Char} (h1 : ¬(ch = '+' ∨ ch = '-'))
    (h2 : ¬ch = '^') (h3 : ¬ch = 'v') (tail : List Char) (d : Nat) :
    literalOverride (ch :: tail) d = literalOverride tail d := by
  simp [literalOverride, h1, h2, h3]

/-- Master lemma about successful literal execution: the pointer and
the instruction counter are untouched, the returned accumulator grows
by exactly the text's own override, and the machine-state invariant is
preserved. -/
theorem execute_literal_ok_props (l : List Char) (d : Nat) (ov : Int) (s : MachineState) :
    ∀ ov' s', execute_literal l d ov s = .ok (ov', s') →
      s'.pointer = s.pointer ∧ s'.instruction_counter = s.instruction_counter ∧
      ov' = ov + literalOverride l d ∧ (WFState s → WFState s') := by
  induction l, d, ov, s using execute_literal.induct with
  | case1 d ov s =>
    intro ov' s' h
    rw [execute_literal_nil] at h
    obtain ⟨rfl, rfl⟩ : ov = ov' ∧ s = s' := by simpa using h
    simp [literalOverride_nil]
  | case2 ch tail d ov s hpm n effect ih =>
    intro ov' s' h
    rw [execute_literal_plusminus hpm] at h
    obtain ⟨hp, hc, hov, hwf⟩ := ih ov' s' h
    refine ⟨by rw [hp, setCell_pointer], by rw [hc, setCell_counter],
      by rw [hov, literalOverride_plusminus hpm], fun hs => ?_⟩
    exact hwf (WFState_setCell hs (by omega))
  | case3 tail d ov s hne ih =>
    intro ov' s' h
    rw [execute_literal_caret] at h
    obtain ⟨hp, hc, hov, hwf⟩ := ih ov' s' h
    refine ⟨hp, hc, ?_, hwf⟩
    rw [hov, literalOverride_caret]; split_ifs <;> ring
  | case4 tail d ov s hne1 hne2 ih =>
    intro ov' s' h
    rw [execute_literal_vee] at h
    obtain ⟨hp, hc, hov, hwf⟩ := ih ov' s' h
    refine ⟨hp, hc, ?_, hwf⟩
    rw [hov, literalOverride_vee]; split_ifs <;> ring
  | case5 tail d ov s hrange hne1 hne2 hne3 =>
    intro ov' s' h
    rw [execute_literal_dot_err _ _ _ _ hrange] at h
    exact absurd h (by simp)
  | case6 tail d ov s hrange hne1 hne2 hne3 ih =>
    intro ov' s' h
    rw [execute_literal_dot_ok _ _ _ _ hrange] at h
    obtain ⟨hp, hc, hov, hwf⟩ := ih ov' s' h
    refine ⟨hp, hc, ?_, ?_⟩
    · rw [hov, literalOverride_other (by simp) (by simp) (by simp)]
    · intro hs
      exact hwf ⟨hs.1, hs.2.1, hs.2.2⟩
  | case7 tail d ov s hin hne1 hne2 hne3 hne4 =>
    intro ov' s' h
    rw [execute_literal_comma_err _ _ _ _ hin] at h
    exact absurd h (by simp)
  | case8 tail d ov s a restInput hin hne1 hne2 hne3 hne4 ih =>
    intro ov' s' h
    rw [execute_literal_comma_ok _ _ _ _ hin] at h
    obtain ⟨hp, hc, hov, hwf⟩ := ih ov' s' h
    refine ⟨hp, hc, ?_, ?_⟩
    · rw [hov, literalOverride_other (by simp) (by simp) (by simp)]
    · intro hs
      exact hwf (WFState_setTape hs (by omega) s.pointer)
  | case9 tail d ov s hne1 hne2 hne3 hne4 hne5 ih =>
    intro ov' s' h
    rw [execute_literal_hash] at h
    obtain ⟨hp, hc, hov, hwf⟩ := ih ov' s' h
    refine ⟨by rw [hp, setCell_pointer], by rw [hc, setCell_counter], ?_, ?_⟩
    · rw [hov, literalOverride_other (by simp) (by simp) (by simp)]
    · intro hs
      exact hwf (WFState_setCell hs (by omega))
  | case10 ch tail d ov s hne1 hne2 hne3 hne4 hne5 hne6 hsp ih =>
    intro ov' s' h
    rw [execute_literal_space hsp] at h
    obtain ⟨hp, hc, hov, hwf⟩ := ih ov' s' h
    refine ⟨hp, hc, ?_, hwf⟩
    rw [hov, literalOverride_other hne1 hne2 hne3]
  | case11 ch tail d ov s hne1 hne2 hne3 hne4 hne5 hne6 hsp =>
    intro ov' s' h
    have hstep : execute_literal (ch :: tail) d ov s = .error (.unknownOp ch d) := by
      simp [execute_literal, hne1, hne2, hne3, hne4, hne5, hne6, hsp]
    rw [hstep] at h
    exact absurd h (by simp)

/-- Successful block and item-list execution preserves the
machine-state invariant. -/
theorem exec_wf_pair :
    (∀ (b : Block) (d : Nat) (s : MachineState), ∀ s',
        WFState s → execute_block b d s = .ok s' → WFState s') ∧
    (∀ (items : List Item) (d : Nat) (ov : Int) (s : MachineState), ∀ ov' s',
        WFState s → execute_items items d ov s = .ok (ov', s') → WFState s') := by
  refine execute_block.mutual_induct ?_ ?_ ?_ ?_ ?_ ?_ ?_ ?_ ?_ ?_
  · intro d s t items hcond s' hwf h
    simp only [execute_block, if_pos hcond, Except.ok.injEq] at h
    subst h
    exact WFState_apply_pointer_movement ((WFState_setCounter s _).mpr hwf) 0
  · intro d s t items hcond e heq ih s' hwf h
    simp [execute_block, hcond, heq] at h
  · intro d s t items hcond ov s1 heq ih s' hwf h
    simp only [execute_block, if_neg hcond, heq, Except.ok.injEq] at h
    subst h
    exact WFState_apply_pointer_movement
      ((WFState_setCounter s1 _).mpr (ih ov s1 hwf heq)) _
  · intro d ov s ov' s' hwf h
    simp only [execute_items, Except.ok.injEq, Prod.mk.injEq] at h
    obtain ⟨rfl, rfl⟩ := h
    exact hwf
  · intro d ov s text rest e heq ov' s' hwf h
    simp [execute_items, heq] at h
  · intro d ov s text rest o s1 heq ih ov' s' hwf h
    simp only [execute_items, heq] at h
    exact ih ov' s' ((execute_literal_ok_props text d 0 s o s1 heq).2.2.2 hwf) h
  · intro d ov s b rest e heq ihb ov' s' hwf h
    simp [execute_items, heq] at h
  · intro d ov s b rest s1 heq ihb ihr ov' s' hwf h
    simp only [execute_items, heq] at h
    exact ihr ov' s' (ihb s1 hwf heq) h

/-- The instrumented interpreter agrees with execute_block and
execute_items: dropping the visit count gives back the original
functions. -/
theorem exec_counted_agree :
    (∀ (b : Block) (d : Nat) (s : MachineState),
        execute_block b d s = Except.map Prod.fst (execute_block_counted b d s)) ∧
    (∀ (items : List Item) (d : Nat) (ov : Int) (s : MachineState),
        execute_items items d ov s =
          Except.map (fun p => (p.1, p.2.1)) (execute_items_counted items d ov s)) := by
  refine execute_block_counted.mutual_induct ?_ ?_ ?_ ?_ ?_ ?_ ?_ ?_ ?_ ?_ ?_
  · intro d s t items hcond
    simp [Except.map, execute_block, execute_block_counted, hcond]
  · intro d s t items hcond e heq ih
    simp [Except.map, execute_block, execute_block_counted, hcond, heq, ih]
  · intro d s t items hcond ov s1 n heq ih
    simp [Except.map, execute_block, execute_block_counted, hcond, heq, ih]
  · intro d ov s
    simp [Except.map, execute_items, execute_items_counted]
  · intro d ov s text rest e heq
    simp [Except.map, execute_items, execute_items_counted, heq]
  · intro d ov s text rest o s1 heq ih
    simp [Except.map, execute_items, execute_items_counted, heq, ih]
  · intro d ov s b rest e heq ihb
    simp [Except.map, execute_items, execute_items_counted, heq, ihb]
  · intro d ov s b rest s1 m heq e heq2 ihb ihr
    simp [Except.map, execute_items, execute_items_counted, heq, heq2, ihb, ihr]
  · intro d ov s b rest s1 m heq o s2 n heq2 ihb ihr
    simp [Except.map, execute_items, execute_items_counted, heq, heq2, ihb, ihr]

/-- On the instrumented interpreter, a successful execution advances
the instruction counter by exactly the number of Block nodes visited,
and a block visits at least itself. -/
theorem exec_counted_delta :
    (∀ (b : Block) (d : Nat) (s : MachineState), ∀ s' n,
        execute_block_counted b d s = .ok (s', n) →
          s'.instruction_counter = s.instruction_counter + n ∧ 1 ≤ n) ∧
    (∀ (items : List Item) (d : Nat) (ov : Int) (s : MachineState), ∀ ov' s' n,
        execute_items_counted items d ov s = .ok (ov', s', n) →
          s'.instruction_counter = s.instruction_counter + n) := by
  refine execute_block_counted.mutual_induct ?_ ?_ ?_ ?_ ?_ ?_ ?_ ?_ ?_ ?_ ?_
  · intro d s t items hcond s' n h
    simp only [execute_block_counted, if_pos hcond, Except.ok.injEq, Prod.mk.injEq] at h
    obtain ⟨h1, rfl⟩ := h
    subst h1
    constructor
    · rw [apply_pointer_movement_counter]
    · omega
  · intro d s t items hcond e heq ih s' n h
    simp [execute_block_counted, hcond, heq] at h
  · intro d s t items hcond ov s1 n heq ih s' n' h
    simp only [execute_block_counted, if_neg hcond, heq, Except.ok.injEq, Prod.mk.injEq] at h
    obtain ⟨h1, rfl⟩ := h
    subst h1
    have hd := ih ov s1 n heq
    rw [apply_pointer_movement_counter]
    simp only []
    omega
  · intro d ov s ov' s' n h
    simp only [execute_items_counted, Except.ok.injEq, Prod.mk.injEq] at h
    obtain ⟨rfl, rfl, rfl⟩ := h
    omega
  · intro d ov s text rest e heq ov' s' n h
    simp [execute_items_counted, heq] at h
  · intro d ov s text rest o s1 heq ih ov' s' n h
    simp only [execute_items_counted, heq] at h
    have hl := (execute_literal_ok_props text d 0 s o s1 heq).2.1
    have hr := ih ov' s' n h
    omega
  · intro d ov s b rest e heq ihb ov' s' n h
    simp [execute_items_counted, heq] at h
  · intro d ov s b rest s1 m heq e heq2 ihb ihr ov' s' n h
    simp [execute_items_counted, heq, heq2] at h
  · intro d ov s b rest s1 m heq o s2 n heq2 ihb ihr ov' s' n' h
    simp only [execute_items_counted, heq, heq2, Except.ok.injEq, Prod.mk.injEq] at h
    obtain ⟨rfl, rfl, rfl⟩ := h
    have hb := ihb s1 m heq
    have hr := ihr o s2 n heq2
    omega

/-- Running a block list preserves the machine-state invariant. -/
theorem runBlocks_wf : ∀ (blocks : List Block) (s s' : MachineState),
    WFState s → runBlocks blocks s = .ok s' → WFState s'
  | [], s, s', hwf, h => by
    simp only [runBlocks, Except.ok.injEq] at h
    subst h
    exact hwf
  | b :: rest, s, s', hwf, h => by
    rcases heq : execute_block b 0 s with e | s1
    · simp [runBlocks, heq] at h
    · simp only [runBlocks, heq] at h
      exact runBlocks_wf rest s1 s' (exec_wf_pair.1 b 0 s s1 hwf heq) h

/-- Running a block list agrees with its instrumented version. -/
theorem runBlocks_counted_agree : ∀ (blocks : List Block) (s : MachineState),
    runBlocks blocks s = Except.map Prod.fst (runBlocks_counted blocks s)
  | [], s => by simp [Except.map, runBlocks, runBlocks_counted]
  | b :: rest, s => by
    rcases heq : execute_block_counted b 0 s with e | p
    · simp [Except.map, runBlocks, runBlocks_counted, heq, exec_counted_agree.1 b 0 s]
    · obtain ⟨s1, m⟩ := p
      simp [Except.map, runBlocks, runBlocks_counted, heq, exec_counted_agree.1 b 0 s,
        runBlocks_counted_agree rest s1]
      rcases runBlocks_counted rest s1 with e | q
      · simp [Except.map]
      · simp [Except.map]

/-- Over a block list, the instrumented run advances the instruction
counter by exactly the total number of Block nodes visited. -/
theorem runBlocks_counted_delta : ∀ (blocks : List Block) (s : MachineState) (s' : MachineState)
    (n : Nat), runBlocks_counted blocks s = .ok (s', n) →
    s'.instruction_counter = s.instruction_counter + n
  | [], s, s', n, h => by
    simp only [runBlocks_counted, Except.ok.injEq, Prod.mk.injEq] at h
    obtain ⟨rfl, rfl⟩ := h
    omega
  | b :: rest, s, s', n, h => by
    rcases heq : execute_block_counted b 0 s with e | p
    · simp [runBlocks_counted, heq] at h
    · obtain ⟨s1, m⟩ := p
      rcases heq2 : runBlocks_counted rest s1 with e | q
      · simp [runBlocks_counted, heq, heq2] at h
      · obtain ⟨s2, k⟩ := q
        simp only [runBlocks_counted, heq, heq2, Except.ok.injEq, Prod.mk.injEq] at h
        obtain ⟨rfl, rfl⟩ := h
        have h1 := (exec_counted_delta.1 b 0 s s1 m heq).1
        have h2 := runBlocks_counted_delta rest s1 s2 k heq2
        omega

theorem runLength_head_ne {c : Char} {rest : List Char} (h : rest.head? ≠ some c) :
    runLength c rest = 0 := by
  cases rest with
  | nil => simp [runLength]
  | cons x xs =>
    have hx : ¬x = c := by simpa using h
    simp [runLength, hx]

theorem runLength_replicate_append (c : Char) (m : Nat) (rest : List Char)
    (h : rest.head? ≠ some c) : runLength c (List.replicate m c ++ rest) = m := by
  induction m with
  | zero => simpa using runLength_head_ne h
  | succ k ih => simp [List.replicate_succ, runLength, ih]

theorem drop_replicate_append (c : Char) (m : Nat) (rest : List Char) :
    (List.replicate m c ++ rest).drop m = rest := by
  have h := List.drop_left (List.replicate m c) rest
  rwa [List.length_replicate] at h

theorem two_mul_effectLoop {ch : Char} (hc : ch = '+' ∨ ch = '-') (d : Nat) :
    ∀ N : Nat, 2 * effectLoop ch d N =
      (if ch = '+' then (1 : Int) else -1) * (if d % 2 = 0 then (1 : Int) else -1) *
        ((N : Int) * ((N : Int) + 1)) := by
  intro N
  induction N with
  | zero => simp [effectLoop]
  | succ k ih =>
    simp only [effectLoop]
    rw [mul_add, ih]
    rcases hc with h | h <;> subst h <;> split_ifs <;> push_cast <;> ring

theorem effectLoop_triangular {ch : Char} (hc : ch = '+' ∨ ch = '-') (d N : Nat) :
    effectLoop ch d N =
      (if ch = '+' then
        (if d % 2 = 0 then ((N * (N + 1) / 2 : Nat) : Int) else -((N * (N + 1) / 2 : Nat) : Int))
       else
        (if d % 2 = 0 then -((N * (N + 1) / 2 : Nat) : Int) else ((N * (N + 1) / 2 : Nat) : Int))) := by
  have hdvd : 2 ∣ N * (N + 1) := (Nat.even_mul_succ_self N).two_dvd
  have h2 : ((N * (N + 1) / 2 : Nat) : Int) * 2 = (N : Int) * ((N : Int) + 1) := by
    have hq := Nat.div_mul_cancel hdvd
    exact_mod_cast congrArg (Nat.cast : Nat → Int) hq
  have hmain := two_mul_effectLoop hc d N
  split_ifs at * <;> linarith

/-- C1: a maximal run of N consecutive identical plus (resp. minus)
characters in an executed literal changes the cell under the pointer
by the triangular sum S = N(N+1)/2 modulo 256, adding S for plus at
even depth and subtracting it at odd depth, with the polarity of both
operators inverted at odd depth; the rest of the state and the
override accumulator are untouched by the run. -/
theorem claim_C1_run_triangular (c : Char) (hc : c = '+' ∨ c = '-') (N : Nat) (hN : 1 ≤ N)
    (rest : List Char) (hrest : rest.head? ≠ some c) (d : Nat) (ov : Int) (s : MachineState) :
    execute_literal (List.replicate N c ++ rest) d ov s =
      execute_literal rest d ov (setCell s ((((getCell s : Int) +
        (if c = '+' then
          (if d % 2 = 0 then ((N * (N + 1) / 2 : Nat) : Int) else -((N * (N + 1) / 2 : Nat) : Int))
         else
          (if d % 2 = 0 then -((N * (N + 1) / 2 : Nat) : Int) else ((N * (N + 1) / 2 : Nat) : Int)))) %
        256).toNat)) := by
  obtain ⟨m, rfl⟩ : ∃ m, N = m + 1 := ⟨N - 1, by omega⟩
  rw [List.replicate_succ, List.cons_append, execute_literal_plusminus hc,
    runLength_replicate_append c m rest hrest, drop_replicate_append,
    effectLoop_triangular hc]

/-- Witness for C1 at a concrete input: a run of two plus characters
at depth 0 adds the triangular number 3 to the current cell. -/
theorem claim_C1_witness :
    execute_literal (List.replicate 2 '+' ++ []) 0 0 (initState []) =
      execute_literal [] 0 0 (setCell (initState []) ((((getCell (initState []) : Int) +
        (if '+' = '+' then
          (if 0 % 2 = 0 then ((2 * (2 + 1) / 2 : Nat) : Int) else -((2 * (2 + 1) / 2 : Nat) : Int))
         else
          (if 0 % 2 = 0 then -((2 * (2 + 1) / 2 : Nat) : Int) else ((2 * (2 + 1) / 2 : Nat) : Int)))) %
        256).toNat)) :=
  claim_C1_run_triangular '+' (Or.inl rfl) 2 (by decide) [] (by decide) 0 0 (initState [])

theorem getCell_initState (input : List Nat) : getCell (initState input) = 0 := rfl

theorem exec_items_override : ∀ (items : List Item) (d : Nat) (ov : Int) (s : MachineState)
    (ov' : Int) (s' : MachineState), execute_items items d ov s = .ok (ov', s') →
    ov' = ov + (items.map (fun it => directItemOverride it d)).sum
  | [], d, ov, s, ov', s', h => by
    simp only [execute_items, Except.ok.injEq, Prod.mk.injEq] at h
    obtain ⟨rfl, rfl⟩ := h
    simp
  | .lit text :: rest, d, ov, s, ov', s', h => by
    rcases heq : execute_literal text d 0 s with e | p
    · simp [execute_items, heq] at h
    · obtain ⟨o, s1⟩ := p
      simp only [execute_items, heq] at h
      have ho := (execute_literal_ok_props text d 0 s o s1 heq).2.2.1
      rw [zero_add] at ho
      have hr := exec_items_override rest d (ov + o) s1 ov' s' h
      rw [hr, ho, List.map_cons, List.sum_cons]
      simp only [directItemOverride]
      ring
  | .blk b :: rest, d, ov, s, ov', s', h => by
    rcases heq : execute_block b (d + 1) s with e | s1
    · simp [execute_items, heq] at h
    · simp only [execute_items, heq] at h
      have hr := exec_items_override rest d ov s1 ov' s' h
      simpa [directItemOverride] using hr

theorem apm_zero_pointer (s : MachineState) :
    (apply_pointer_movement 0 s).pointer =
      (if s.instruction_counter % 2 = 1 then (s.pointer + 127) % 128
       else (s.pointer + 1) % 128) := by
  obtain ⟨tape, p, c, inp, out⟩ := s
  simp only [apply_pointer_movement, ne_eq, not_true_eq_false, if_false]
  split_ifs <;> simp only [MachineState.pointer] <;> omega

/-- C2: pointer movement happens exactly once per executed block,
after that block's instruction-counter increment; a nonzero override
total moves the pointer to (pointer + override) mod 128, and a zero
override falls back to the default rule on the post-increment parity
of the counter: odd moves left by one, even moves right by one, both
modulo 128. -/
theorem claim_C2_pointer_movement :
    (∀ (ov : Int) (s : MachineState), ov ≠ 0 →
      (apply_pointer_movement ov s).pointer < 128 ∧
      ((apply_pointer_movement ov s).pointer : Int) % 128 = ((s.pointer : Int) + ov) % 128) ∧
    (∀ s : MachineState,
      (apply_pointer_movement 0 s).pointer =
        (if s.instruction_counter % 2 = 1 then (s.pointer + 127) % 128
         else (s.pointer + 1) % 128)) ∧
    (∀ (b : Block) (d : Nat) (s s' : MachineState), execute_block b d s = .ok s' →
      ∃ (ov : Int) (u : MachineState),
        s' = apply_pointer_movement ov { u with instruction_counter := u.instruction_counter + 1 } ∧
        ((b.block_type = BlockType.conditional ∧ getCell s = 0 ∧ u = s ∧ ov = 0) ∨
          execute_items b.items d 0 s = .ok (ov, u))) := by
  refine ⟨?_, ?_, ?_⟩
  · intro ov s hov
    simp only [apply_pointer_movement, if_pos hov]
    constructor <;> omega
  · intro s
    exact apm_zero_pointer s
  · intro b d s s' h
    obtain ⟨bt, items⟩ := b
    by_cases hcond : bt = BlockType.conditional ∧ getCell s = 0
    · simp only [execute_block, if_pos hcond, Except.ok.injEq] at h
      exact ⟨0, s, h.symm, Or.inl ⟨hcond.1, hcond.2, rfl, rfl⟩⟩
    · simp only [execute_block, if_neg hcond] at h
      rcases heq : execute_items items d 0 s with e | p
      · rw [heq] at h
        exact absurd h (by simp)
      · obtain ⟨ov, u⟩ := p
        rw [heq] at h
        simp only [Except.ok.injEq] at h
        exact ⟨ov, u, h.symm, Or.inr heq⟩

/-- Witness for C2 at a concrete input: an override of 200 (larger
than 128) still lands the pointer inside [0, 128) and agrees with
addition modulo 128. -/
theorem claim_C2_witness :
    (apply_pointer_movement 200 (initState [])).pointer < 128 ∧
    ((apply_pointer_movement 200 (initState [])).pointer : Int) % 128 =
      (((initState []).pointer : Int) + 200) % 128 :=
  claim_C2_pointer_movement.1 200 (initState []) (by decide)

/-- C3: every operation of a run keeps every tape cell in [0, 255] and
the pointer in [0, 127] (with the tape keeping its 128 cells), for
every override magnitude, and a completed run starting from the
initial state satisfies the invariant. -/
theorem claim_C3_invariants :
    (∀ (l : List Char) (d : Nat) (ov : Int) (s : MachineState) (ov' : Int) (s' : MachineState),
        WFState s → execute_literal l d ov s = .ok (ov', s') → WFState s') ∧
    (∀ (ov : Int) (s : MachineState), WFState s → WFState (apply_pointer_movement ov s)) ∧
    (∀ (b : Block) (d : Nat) (s s' : MachineState),
        WFState s → execute_block b d s = .ok s' → WFState s') ∧
    (∀ (blocks : List Block) (input : List Nat) (s' : MachineState),
        AnnoyInterpreter.run blocks input = .ok s' → WFState s') := by
  refine ⟨?_, ?_, ?_, ?_⟩
  · intro l d ov s ov' s' hwf h
    exact (execute_literal_ok_props l d ov s ov' s' h).2.2.2 hwf
  · intro ov s hwf
    exact WFState_apply_pointer_movement hwf ov
  · intro b d s s' hwf h
    exact exec_wf_pair.1 b d s s' hwf h
  · intro blocks input s' h
    exact runBlocks_wf blocks (initState input) s' (WFState_initState input) h

/-- Witness for C3 at a concrete input: the invariant holds after a
pointer move with the large override 300. -/
theorem claim_C3_witness : WFState (apply_pointer_movement 300 (initState [])) :=
  claim_C3_invariants.2.1 300 (initState []) (WFState_initState [])

/-- C4: the instruction counter advances by exactly one per visited
Block node: the instrumented interpreter agrees with execute_block,
its visit count is at least 1 and is exactly the counter increase,
literal items never change the counter, and the final counter of a
complete run equals the total number of Block nodes visited. -/
theorem claim_C4_instruction_counter :
    (∀ (b : Block) (d : Nat) (s : MachineState),
        execute_block b d s = Except.map Prod.fst (execute_block_counted b d s)) ∧
    (∀ (b : Block) (d : Nat) (s s' : MachineState) (n : Nat),
        execute_block_counted b d s = .ok (s', n) →
          s'.instruction_counter = s.instruction_counter + n ∧ 1 ≤ n) ∧
    (∀ (l : List Char) (d : Nat) (ov : Int) (s : MachineState) (ov' : Int) (s' : MachineState),
        execute_literal l d ov s = .ok (ov', s') →
          s'.instruction_counter = s.instruction_counter) ∧
    (∀ (blocks : List Block) (input : List Nat) (s' : MachineState) (n : Nat),
        run_counted blocks input = .ok (s', n) →
          AnnoyInterpreter.run blocks input = .ok s' ∧ s'.instruction_counter = n) := by
  refine ⟨exec_counted_agree.1, exec_counted_delta.1, ?_, ?_⟩
  · intro l d ov s ov' s' h
    exact (execute_literal_ok_props l d ov s ov' s' h).2.1
  · intro blocks input s' n h
    have hagree := runBlocks_counted_agree blocks (initState input)
    have hdelta := runBlocks_counted_delta blocks (initState input) s' n h
    constructor
    · rw [AnnoyInterpreter.run, hagree, show runBlocks_counted blocks (initState input) =
        .ok (s', n) from h]
      simp [Except.map]
    · simpa [initState] using hdelta

/-- Witness for C4 at a concrete input: a single skipped conditional
block visits exactly one Block node and ends with counter 1. -/
theorem claim_C4_witness :
    AnnoyInterpreter.run [Block.mk BlockType.conditional []] [] =
      .ok { tape := List.replicate 128 0, pointer := 127, instruction_counter := 1,
            input := [], output := [] } ∧
    MachineState.instruction_counter
      { tape := List.replicate 128 0, pointer := 127, instruction_counter := 1,
        input := [], output := [] } = 1 :=
  claim_C4_instruction_counter.2.2.2 [Block.mk BlockType.conditional []] []
    { tape := List.replicate 128 0, pointer := 127, instruction_counter := 1,
      input := [], output := [] } 1 rfl

/-- C5: a conditional block entered on a zero cell runs no body at
all: tape, input and output are untouched, yet the instruction counter
advances by one and the pointer moves once by the default rule with no
override. -/
theorem claim_C5_conditional_skip (items : List Item) (d : Nat) (s : MachineState)
    (h : getCell s = 0) :
    ∃ s', execute_block (Block.mk BlockType.conditional items) d s = .ok s' ∧
      s'.tape = s.tape ∧ s'.output = s.output ∧ s'.input = s.input ∧
      s'.instruction_counter = s.instruction_counter + 1 ∧
      s'.pointer = (if (s.instruction_counter + 1) % 2 = 1 then (s.pointer + 127) % 128
                    else (s.pointer + 1) % 128) := by
  refine ⟨apply_pointer_movement 0 { s with instruction_counter := s.instruction_counter + 1 },
    ?_, ?_, ?_, ?_, ?_, ?_⟩
  · simp [execute_block, h]
  · rw [apply_pointer_movement_tape]
  · rw [apply_pointer_movement_output]
  · rw [apply_pointer_movement_input]
  · rw [apply_pointer_movement_counter]
  · rw [apm_zero_pointer]

/-- Witness for C5 at a concrete input: a conditional block with a
plus-run body, entered on the fresh all-zero state, only bumps the
counter and steps the pointer. -/
theorem claim_C5_witness :
    ∃ s', execute_block (Block.mk BlockType.conditional [Item.lit ['+']]) 3 (initState []) =
        .ok s' ∧
      s'.tape = (initState []).tape ∧ s'.output = (initState []).output ∧
      s'.input = (initState []).input ∧
      s'.instruction_counter = (initState []).instruction_counter + 1 ∧
      s'.pointer = (if ((initState []).instruction_counter + 1) % 2 = 1
                    then ((initState []).pointer + 127) % 128
                    else ((initState []).pointer + 1) % 128) :=
  claim_C5_conditional_skip [Item.lit ['+']] 3 (initState []) rfl

/-- C6: the override total a block's pointer movement uses is exactly
the sum of the overrides of its direct literal items: a literal's
returned override is a pure function of its text and depth added to
the accumulator, the item loop adds exactly the direct literal
overrides, and a nested block hands the fully updated state to the
rest of the loop while leaving the accumulator untouched. -/
theorem claim_C6_override_scoping :
    (∀ (l : List Char) (d : Nat) (ov : Int) (s : MachineState) (ov' : Int) (s' : MachineState),
        execute_literal l d ov s = .ok (ov', s') → ov' = ov + literalOverride l d) ∧
    (∀ (items : List Item) (d : Nat) (ov : Int) (s : MachineState) (ov' : Int)
        (s' : MachineState), execute_items items d ov s = .ok (ov', s') →
        ov' = ov + (items.map (fun it => directItemOverride it d)).sum) ∧
    (∀ (b : Block) (rest : List Item) (d : Nat) (ov : Int) (s s' : MachineState),
        execute_block b (d + 1) s = .ok s' →
          execute_items (Item.blk b :: rest) d ov s = execute_items rest d ov s') := by
  refine ⟨?_, ?_, ?_⟩
  · intro l d ov s ov' s' h
    exact (execute_literal_ok_props l d ov s ov' s' h).2.2.1
  · intro items d ov s ov' s' h
    exact exec_items_override items d ov s ov' s' h
  · intro b rest d ov s s' h
    simp only [execute_items, h]

/-- Witness for C6 at a concrete input: a single caret at depth 0
returns override 1, the pure override of its text. -/
theorem claim_C6_witness : (1 : Int) = 0 + literalOverride ['^'] 0 :=
  claim_C6_override_scoping.1 ['^'] 0 0 (initState []) 1 (initState [])
    (by simp [execute_literal])

theorem findSemicolon_eq_none {line : List Char} (h : (';') ∉ line) :
    findSemicolon line = none := by
  induction line with
  | nil => rfl
  | cons c t ih =>
    simp only [List.mem_cons, not_or] at h
    have hc : ¬c = ';' := fun hcc => h.1 hcc.symm
    simp [findSemicolon, hc, ih h.2]

theorem cutLine_no_semicolon {line : List Char} (h : (';') ∉ line) : cutLine line = line := by
  simp [cutLine, findSemicolon_eq_none h]

theorem cutLine_eq_takeWhile (line : List Char) :
    cutLine line = line.takeWhile (fun c => !(c = ';')) := by
  induction line with
  | nil => rfl
  | cons c t ih =>
    by_cases hc : c = ';'
    · subst hc
      simp [cutLine, findSemicolon, List.takeWhile_cons]
    · have hstep : cutLine (c :: t) = c :: cutLine t := by
        simp only [cutLine, findSemicolon, if_neg hc]
        rcases hft : findSemicolon t with _ | i <;>
          simp [hft, List.take_succ_cons]
      rw [hstep, ih, List.takeWhile_cons]
      simp [hc]

/-- C8: on a source whose block is never closed, parsing fails with
the missing-closing-token error, but the index it carries is the
end-of-input scan position (4 for this four-character source), not 0,
the start position of the unterminated block that the raised message
claims to report. -/
theorem claim_C8_missing_closing_reports_end :
    parse_program 50 ['(', '<', '+', '+'] =
      .error (ParseError.missingClosing '>' ')' 4) := rfl

/-- C9: strip_comments works per line: it cuts every line at its first
semicolon (exactly the prefix before the first semicolon survives),
leaves a line without a semicolon unchanged, and maps the line list
one to one, preserving the number of lines. -/
theorem claim_C9_strip_comments (s : List Char) :
    strip_comments s = List.intercalate ['\n'] ((pySplitlines s).map cutLine) ∧
    (∀ line : List Char, (';') ∉ line → cutLine line = line) ∧
    (∀ line : List Char, cutLine line = line.takeWhile (fun c => !(c = ';'))) ∧
    ((pySplitlines s).map cutLine).length = (pySplitlines s).length := by
  refine ⟨rfl, ?_, cutLine_eq_takeWhile, by simp⟩
  intro line h
  exact cutLine_no_semicolon h

/-- Witness for C9 at a concrete input: a semicolon-free line is kept
unchanged. -/
theorem claim_C9_witness : cutLine ['a', 'b'] = ['a', 'b'] :=
  (claim_C9_strip_comments ['a', ';', 'b']).2.1 ['a', 'b'] (by decide)

theorem parse_program_aux_whitespace : ∀ (fuel : Nat) (l : List Char) (pos : Nat),
    (∀ c ∈ l, pyIsSpace c = true) → l.length < fuel →
    parse_program_aux fuel l pos = .ok []
  | 0, l, pos, _, hlen => absurd hlen (by omega)
  | fuel + 1, [], pos, _, _ => rfl
  | fuel + 1, c :: rest, pos, hws, hlen => by
    have hc : pyIsSpace c = true := hws c (List.mem_cons_self c rest)
    simp only [parse_program_aux, if_pos hc]
    refine parse_program_aux_whitespace fuel rest (pos + 1)
      (fun x hx => hws x (List.mem_cons_of_mem c hx)) ?_
    simp only [List.length_cons] at hlen
    omega

/-- C10: a source made only of whitespace characters (including the
empty source) parses to the empty block list, and running the empty
program succeeds immediately, leaving the machine at its initial
values: 128 zero cells, pointer 0, counter 0, and no output. -/
theorem claim_C10_whitespace_program (fuel : Nat) (s : List Char) (input : List Nat)
    (hws : ∀ c ∈ s, pyIsSpace c = true) (hfuel : s.length < fuel) :
    parse_program fuel s = .ok [] ∧
    AnnoyInterpreter.run [] input = .ok (initState input) ∧
    (initState input).tape = List.replicate 128 0 ∧ (initState input).pointer = 0 ∧
    (initState input).instruction_counter = 0 ∧ (initState input).output = [] :=
  ⟨parse_program_aux_whitespace fuel s 0 hws hfuel, rfl, rfl, rfl, rfl, rfl⟩

/-- Witness for C10 at a concrete input: a space and a newline parse
to no blocks, and the empty program keeps the initial state. -/
theorem claim_C10_witness :
    parse_program 3 [' ', '\n'] = .ok [] ∧
    AnnoyInterpreter.run [] [7] = .ok (initState [7]) ∧
    (initState [7]).tape = List.replicate 128 0 ∧ (initState [7]).pointer = 0 ∧
    (initState [7]).instruction_counter = 0 ∧ (initState [7]).output = [] :=
  claim_C10_whitespace_program 3 [' ', '\n'] [7] (by decide) (by decide)

theorem execute_literal_unknown {ch : Char} (h1 : ¬(ch = '+' ∨ ch = '-')) (h2 : ¬ch = '^')
    (h3 : ¬ch = 'v') (h4 : ¬ch = '.') (h5 : ¬ch = ',') (h6 : ¬ch = '#')
    (h7 : ¬pyIsSpace ch = true) (tail : List Char) (d : Nat) (ov : Int) (s : MachineState) :
    execute_literal (ch :: tail) d ov s = .error (.unknownOp ch d) := by
  simp [execute_literal, h1, h2, h3, h4, h5, h6, h7]

theorem runLength_cons_self (c : Char) (t : List Char) :
    runLength c (c :: t) = runLength c t + 1 := by
  simp [runLength]

theorem runLength_cons_ne {c x : Char} (h : ¬x = c) (t : List Char) :
    runLength c (x :: t) = 0 := by
  simp [runLength, h]

theorem runLength_all_append {c : Char} :
    ∀ {t : List Char}, (∀ x ∈ t, x = c) → ∀ X : List Char,
      runLength c (t ++ X) = t.length + runLength c X
  | [], _, X => by simp
  | x :: t', h, X => by
    have hx : x = c := h x (List.mem_cons_self x t')
    have ih := runLength_all_append (fun y hy => h y (List.mem_cons_of_mem x hy)) X
    rw [List.cons_append, hx, runLength_cons_self, ih, List.length_cons]
    omega

theorem runLength_stop {c : Char} :
    ∀ {t : List Char}, (∃ x ∈ t, ¬x = c) → ∀ X : List Char,
      runLength c (t ++ X) = runLength c t ∧ runLength c t < t.length
  | [], h, _ => absurd h (by simp)
  | x :: t', h, X => by
    by_cases hx : x = c
    · have h' : ∃ y ∈ t', ¬y = c := by
        rcases h with ⟨y, hy, hne⟩
        rcases List.mem_cons.mp hy with h1 | hy'
        · exact absurd (h1.trans hx) hne
        · exact ⟨y, hy', hne⟩
      obtain ⟨hr, hlt⟩ := runLength_stop h' X
      rw [List.cons_append, hx, runLength_cons_self, runLength_cons_self, List.length_cons]
      exact ⟨by rw [hr], by omega⟩
    · rw [List.cons_append, runLength_cons_ne hx, runLength_cons_ne hx, List.length_cons]
      exact ⟨rfl, by omega⟩

theorem getLast?_all {c : Char} :
    ∀ {t : List Char}, (∀ x ∈ t, x = c) → (c :: t).getLast? = some c
  | [], _ => rfl
  | x :: t', h => by
    have hx : x = c := h x (List.mem_cons_self x t')
    have ih := getLast?_all (fun y hy => h y (List.mem_cons_of_mem x hy))
    rw [hx, List.getLast?_cons_cons]
    exact ih

theorem getLast?_drop_of_lt {t : List Char} {k : Nat} (hk : k < t.length) :
    (t.drop k).getLast? = t.getLast? := by
  have hne : t.drop k ≠ [] := by
    rw [ne_eq, List.drop_eq_nil_iff]
    omega
  conv_rhs => rw [← List.take_append_drop k t]
  exact (List.getLast?_append_of_ne_nil _ hne).symm

/-- Inserting one whitespace character between l1 and l2 does not
change literal execution, provided the insertion point does not split
a run: l1 may not end with the same plus or minus character that l2
starts with. Induction is on a bound for the length of l1. -/
theorem ws_insert_aux (w : Char) (hw : pyIsSpace w = true) (l2 : List Char) (d : Nat) :
    ∀ (n : Nat) (l1 : List Char), l1.length ≤ n → ∀ (ov : Int) (s : MachineState),
      (∀ c : Char, (c = '+' ∨ c = '-') → ¬(l1.getLast? = some c ∧ l2.head? = some c)) →
      execute_literal (l1 ++ w :: l2) d ov s = execute_literal (l1 ++ l2) d ov s := by
  intro n
  induction n with
  | zero =>
    intro l1 hlen ov s _
    obtain rfl : l1 = [] := List.length_eq_zero.mp (by omega)
    simpa using execute_literal_space hw l2 d ov s
  | succ n ihn =>
    intro l1 hlen ov s hrun
    cases l1 with
    | nil => simpa using execute_literal_space hw l2 d ov s
    | cons ch t1 =>
      have hlen' : t1.length ≤ n := by
        simp only [List.length_cons] at hlen
        omega
      have hrun' : ∀ c : Char, (c = '+' ∨ c = '-') →
          ¬(t1.getLast? = some c ∧ l2.head? = some c) := by
        intro c hc hand
        cases t1 with
        | nil => simp at hand
        | cons a t =>
          refine hrun c hc ⟨?_, hand.2⟩
          rw [List.getLast?_cons_cons]
          exact hand.1
      by_cases hpm : ch = '+' ∨ ch = '-'
      · rw [List.cons_append, List.cons_append, execute_literal_plusminus hpm,
          execute_literal_plusminus hpm]
        by_cases hall : ∀ x ∈ t1, x = ch
        · have hwne : ¬w = ch := by
            intro hcc
            subst hcc
            rcases hpm with h | h <;> subst h <;> exact absurd hw (by decide)
          have hl2 : l2.head? ≠ some ch := by
            intro hhead
            exact hrun ch hpm ⟨getLast?_all hall, hhead⟩
          have e1 : runLength ch (t1 ++ w :: l2) = t1.length := by
            rw [runLength_all_append hall (w :: l2), runLength_cons_ne hwne]
            omega
          have e2 : runLength ch (t1 ++ l2) = t1.length := by
            rw [runLength_all_append hall l2, runLength_head_ne hl2]
            omega
          rw [e1, e2,
            show (t1 ++ w :: l2).drop t1.length = w :: l2 from List.drop_left t1 (w :: l2),
            show (t1 ++ l2).drop t1.length = l2 from List.drop_left t1 l2]
          exact execute_literal_space hw l2 d ov _
        · have hex : ∃ x ∈ t1, ¬x = ch := by
            push_neg at hall
            exact hall
          obtain ⟨e1, hlt⟩ := runLength_stop hex (w :: l2)
          obtain ⟨e2, _⟩ := runLength_stop hex l2
          rw [e1, e2, List.drop_append_of_le_length (by omega),
            List.drop_append_of_le_length (by omega)]
          refine ihn (t1.drop (runLength ch t1)) ?_ ov _ ?_
          · rw [List.length_drop]
            omega
          · intro c hc hand
            refine hrun' c hc ⟨?_, hand.2⟩
            rw [← getLast?_drop_of_lt hlt]
            exact hand.1
      · rw [List.cons_append, List.cons_append]
        by_cases hc1 : ch = '^'
        · subst hc1
          rw [execute_literal_caret, execute_literal_caret]
          exact ihn t1 hlen' _ s hrun'
        by_cases hc2 : ch = 'v'
        · subst hc2
          rw [execute_literal_vee, execute_literal_vee]
          exact ihn t1 hlen' _ s hrun'
        by_cases hc3 : ch = '.'
        · subst hc3
          by_cases hrange : getCell s < 32 ∨ getCell s > 126
          · rw [execute_literal_dot_err _ _ _ _ hrange, execute_literal_dot_err _ _ _ _ hrange]
          · rw [execute_literal_dot_ok _ _ _ _ hrange, execute_literal_dot_ok _ _ _ _ hrange]
            exact ihn t1 hlen' ov _ hrun'
        by_cases hc4 : ch = ','
        · subst hc4
          rcases hin : s.input with _ | ⟨a, ri⟩
          · rw [execute_literal_comma_err _ _ _ _ hin, execute_literal_comma_err _ _ _ _ hin]
          · rw [execute_literal_comma_ok _ _ _ _ hin, execute_literal_comma_ok _ _ _ _ hin]
            exact ihn t1 hlen' ov _ hrun'
        by_cases hc5 : ch = '#'
        · subst hc5
          rw [execute_literal_hash, execute_literal_hash]
          exact ihn t1 hlen' ov _ hrun'
        by_cases hc6 : pyIsSpace ch
        · rw [execute_literal_space hc6, execute_literal_space hc6]
          exact ihn t1 hlen' ov s hrun'
        · rw [execute_literal_unknown hpm hc1 hc2 hc3 hc4 hc5 hc6,
            execute_literal_unknown hpm hc1 hc2 hc3 hc4 hc5 hc6]

set_option maxRecDepth 4000 in
/-- C7 counterexample: the claim fails as stated. Inserting a space
inside the plus run of the literal "++" at depth 0 splits it into two
runs of one: the state reaches cell value 1 + 1 = 2 instead of the
triangular sum 3, so the two executions differ. -/
theorem claim_C7_counterexample :
    execute_literal ['+', ' ', '+'] 0 0 (initState []) =
      .ok (0, setCell (setCell (initState []) 1) 2) ∧
    execute_literal ['+', '+'] 0 0 (initState []) = .ok (0, setCell (initState []) 3) ∧
    execute_literal ['+', ' ', '+'] 0 0 (initState []) ≠
      execute_literal ['+', '+'] 0 0 (initState []) := by
  have h1 : execute_literal ['+', ' ', '+'] 0 0 (initState []) =
      .ok (0, setCell (setCell (initState []) 1) 2) := by
    simp [execute_literal, runLength, effectLoop, getCell, setCell, initState, pyIsSpace]
  have h2 : execute_literal ['+', '+'] 0 0 (initState []) =
      .ok (0, setCell (initState []) 3) := by
    simp [execute_literal, runLength, effectLoop, getCell, setCell, initState]
  refine ⟨h1, h2, ?_⟩
  rw [h1, h2, ne_eq, Except.ok.injEq, Prod.mk.injEq]
  intro hcontra
  exact absurd hcontra.2 (by decide)

/-- C7 amended: each whitespace character in a literal is skipped with
no effect and no override, and inserting a whitespace character at a
position that does not split a maximal run of consecutive identical
plus or minus characters leaves literal execution unchanged; an
insertion inside such a run splits it and may change the tape effect. -/
theorem claim_C7_whitespace_amended (w : Char) (hw : pyIsSpace w = true)
    (l1 l2 : List Char) (d : Nat) (ov : Int) (s : MachineState)
    (hrun : ∀ c : Char, (c = '+' ∨ c = '-') → ¬(l1.getLast? = some c ∧ l2.head? = some c)) :
    execute_literal (l1 ++ w :: l2) d ov s = execute_literal (l1 ++ l2) d ov s :=
  ws_insert_aux w hw l2 d l1.length l1 le_rfl ov s hrun

/-- Witness for the amended C7 at a concrete input: a space inserted
between a plus and a minus (no run is split) changes nothing. -/
theorem claim_C7_witness :
    execute_literal (['+'] ++ ' ' :: ['-']) 0 0 (initState []) =
      execute_literal (['+'] ++ ['-']) 0 0 (initState []) :=
  claim_C7_whitespace_amended ' ' (by decide) ['+'] ['-'] 0 0 (initState [])
    (by intro c hc; rcases hc with rfl | rfl <;> simp)
